/-
  Verification of the timer subsystem of libcsp (src/timer.c).

  The C code implements, per scheduler core, an array-backed binary
  min-heap of tasks ordered by deadline (`timer.when`), with:
    * `csp_timer_heap_init`  — allocation and token-counter seeding,
    * `csp_timer_heap_put`   — insert with sift-up,
    * `csp_timer_heap_del`   — delete at the task's recorded index,
                               moving the last slot in and sifting down,
    * `csp_timer_heap_get`   — bulk extraction of all expired roots,
    * `csp_timer_cancel`     — token-CAS-guarded removal,
    * `csp_timer_heaps_init` / `csp_timer_heaps_destroy` — the registry,
    * `csp_timer_poll`       — aggregation of expired lists.

  We embed the heap array as a `List Ent` (slot `i` of the C array is
  element `i` of the list); a task's `timer.idx` field is, by the code's
  own bookkeeping, always its position in that list, so `del` is modelled
  as deletion at a list index.  64-bit token values are modelled as
  `Nat` bit patterns (reduced mod 2^64 where the C arithmetic wraps);
  the C sentinel `-1` is the pattern `2^64 - 1`.

  The C `while` loops are embedded as fuel-indexed structural recursions;
  in each case the fuel passed by the wrapper is an upper bound on the
  number of iterations the loop can perform (the sift-up position strictly
  decreases, the sift-down position strictly increases below `len`, and
  the extraction loop shrinks `len`), so the embedded function runs the
  loop to its real exit, never to fuel exhaustion.
-/
import Mathlib

set_option autoImplicit false

namespace LibcspTimer

/-- A heap slot: the task reference's identity (the pointer) and its
    deadline `timer.when` (`csp_timer_time_t`, a 64-bit time value). -/
structure Ent where
  id : Nat
  when : Int
  deriving Repr, DecidableEq

instance : Inhabited Ent := ⟨⟨0, 0⟩⟩

/-- Deadline stored in slot `i` (reads `heap->procs[i]->timer.when`);
    out-of-range reads return the junk default, never reached by the code. -/
def wn (l : List Ent) (i : Nat) : Int := (l.getD i default).when

/-- `csp_swap(heap->procs[i], heap->procs[j])` together with the
    `timer.idx` swap (positions, our indices, are exchanged). -/
def lswap (l : List Ent) (i j : Nat) : List Ent :=
  (l.set i (l.getD j default)).set j (l.getD i default)

/-- The sift-up loop of `csp_timer_heap_put` (timer.c:104-113): while the
    current slot `son` is not the root and the parent's deadline is not ≤
    the son's, swap and continue from the parent.  The first argument is
    fuel; the parent index is strictly smaller, so fuel `son` runs the
    loop to its exit. -/
def siftUpF : Nat → List Ent → Nat → List Ent
  | _, l, 0 => l
  | 0, l, _ + 1 => l
  | fuel + 1, l, son + 1 =>
    let father := son / 2
    if wn l father ≤ wn l (son + 1) then l
    else siftUpF fuel (lswap l father (son + 1)) father

def siftUp (l : List Ent) (son : Nat) : List Ent := siftUpF son l son

/-- `csp_timer_heap_put`'s array effect: append the task at slot `len`
    and sift it up (token assignment is modelled in `TState.put` below). -/
def heapPut (l : List Ent) (e : Ent) : List Ent :=
  siftUp (l ++ [e]) l.length

/-- The child picked by `csp_timer_heap_del`'s sift-down (timer.c:133-135):
    start from the left child `2*father+1`; move to the right child when it
    exists and `csp_timer_heap_lte(heap, son+1, son)` holds, i.e. when the
    right child's deadline is ≤ the left child's. -/
def chosenSon (l : List Ent) (father : Nat) : Nat :=
  if 2 * father + 1 + 1 < l.length ∧ wn l (2 * father + 1 + 1) ≤ wn l (2 * father + 1)
  then 2 * father + 1 + 1 else 2 * father + 1

/-- The sift-down loop of `csp_timer_heap_del` (timer.c:128-142).  The
    position strictly increases each iteration and the loop exits once it
    has no left child, so fuel `l.length` runs the loop to its exit. -/
def siftDownF : Nat → List Ent → Nat → List Ent
  | 0, l, _ => l
  | fuel + 1, l, father =>
    if 2 * father + 1 ≥ l.length then l
    else
      let son := chosenSon l father
      if wn l father ≤ wn l son then l
      else siftDownF fuel (lswap l father son) son

def siftDown (l : List Ent) (father : Nat) : List Ent := siftDownF l.length l father

/-- `csp_timer_heap_del` on the task sitting at slot `i` (timer.c:119-143):
    if `i` is the last slot just shrink, else move the last element into
    slot `i`, shrink, and sift down from `i`.  (The code finds `i` as
    `proc->timer.idx`, which its swaps keep equal to the slot index.) -/
def delAt (l : List Ent) (i : Nat) : List Ent :=
  if i = l.length - 1 then l.take (l.length - 1)
  else siftDown ((l.take (l.length - 1)).set i (l.getD (l.length - 1) default)) i

/-- The min-heap property on deadlines over slots `[0, len)`: every
    non-root slot's parent has deadline ≤ its own. -/
def IsHeap (l : List Ent) : Prop :=
  ∀ i, i < l.length → 0 < i → wn l ((i - 1) / 2) ≤ wn l i

instance (l : List Ent) : Decidable (IsHeap l) := by
  unfold IsHeap; infer_instance

-- sanity checks against hand-executions of the C code
example : heapPut [⟨0,1⟩, ⟨1,5⟩, ⟨2,2⟩] ⟨3,0⟩ = [⟨3,0⟩, ⟨0,1⟩, ⟨2,2⟩, ⟨1,5⟩] := by decide
example : IsHeap [⟨0,1⟩, ⟨1,5⟩, ⟨2,2⟩] := by decide
example : delAt [⟨0,1⟩, ⟨1,5⟩, ⟨2,2⟩] 0 = [⟨2,2⟩, ⟨1,5⟩] := by decide

/-! ### Basic facts about `wn`, `lswap` and index arithmetic -/

theorem lswap_length (l : List Ent) (i j : Nat) : (lswap l i j).length = l.length := by
  simp [lswap]

theorem wn_lswap (l : List Ent) (i j k : Nat) (hi : i < l.length) (hj : j < l.length) :
    wn (lswap l i j) k = if k = j then wn l i else if k = i then wn l j else wn l k := by
  unfold wn lswap
  rcases eq_or_ne k j with rfl | hkj
  · simp only [if_pos rfl, List.getD_eq_getElem?_getD]
    rw [List.getElem?_set_self (by simpa using hj)]
    simp [List.getD_eq_getElem?_getD]
  · rw [if_neg hkj]
    rcases eq_or_ne k i with rfl | hki
    · simp only [if_pos rfl, List.getD_eq_getElem?_getD]
      rw [List.getElem?_set_ne hkj.symm, List.getElem?_set_self hi]
      simp
    · rw [if_neg hki]
      simp only [List.getD_eq_getElem?_getD]
      rw [List.getElem?_set_ne hkj.symm, List.getElem?_set_ne hki.symm]

theorem set_getD_perm (t : List Ent) (k : Nat) (hk : k < t.length) (a : Ent) :
    List.Perm (t.getD k default :: t.set k a) (a :: t) := by
  have hg : t.getD k default = t[k] := by
    rw [List.getD_eq_getElem?_getD, List.getElem?_eq_getElem hk]; rfl
  rw [hg, List.set_eq_take_cons_drop a hk]
  have ht : t = t.take k ++ t[k] :: t.drop (k + 1) := by
    conv_lhs => rw [← List.take_append_drop k t]
    rw [List.get_drop_eq_drop t k hk]
  have p1 : List.Perm (t[k] :: (t.take k ++ a :: t.drop (k + 1)))
      (t[k] :: a :: (t.take k ++ t.drop (k + 1))) := List.Perm.cons _ List.perm_middle
  have p2 : List.Perm (t[k] :: a :: (t.take k ++ t.drop (k + 1)))
      (a :: t[k] :: (t.take k ++ t.drop (k + 1))) := List.Perm.swap _ _ _
  have p3 : List.Perm (a :: t[k] :: (t.take k ++ t.drop (k + 1)))
      (a :: (t.take k ++ t[k] :: t.drop (k + 1))) :=
    List.Perm.cons _ List.perm_middle.symm
  have := (p1.trans p2).trans p3
  rwa [← ht] at this

theorem lswap_perm : ∀ (l : List Ent) (i j : Nat), i < l.length → j < l.length →
    List.Perm (lswap l i j) l := by
  intro l i j hi hj
  induction l generalizing i j with
  | nil => simp at hi
  | cons a t ih =>
    match i, j with
    | 0, 0 => simp [lswap]
    | 0, k + 1 =>
      have hk : k < t.length := by simpa using hj
      simp only [lswap, List.getD_cons_succ, List.getD_cons_zero, List.set_cons_zero,
        List.set_cons_succ]
      exact set_getD_perm t k hk a
    | m + 1, 0 =>
      have hm : m < t.length := by simpa using hi
      simp only [lswap, List.getD_cons_succ, List.getD_cons_zero, List.set_cons_zero,
        List.set_cons_succ]
      exact set_getD_perm t m hm a
    | m + 1, k + 1 =>
      have hm : m < t.length := by simpa using hi
      have hk : k < t.length := by simpa using hj
      simp only [lswap, List.getD_cons_succ, List.set_cons_succ]
      exact List.Perm.cons a (ih m k hm hk)

/-! ### Sift-up correctness -/

/-- Intermediate invariant of the sift-up loop: every parent/child pair of
    occupied slots is ordered except possibly the pair above the moving
    slot `j`, and the element above `j` bounds `j`'s children. -/
def UpInv (l : List Ent) (j : Nat) : Prop :=
  (∀ i, i < l.length → 0 < i → i ≠ j → wn l ((i - 1) / 2) ≤ wn l i) ∧
  (∀ c, c < l.length → (c - 1) / 2 = j → 0 < j → wn l ((j - 1) / 2) ≤ wn l c)

theorem siftUpF_heap : ∀ (fuel : Nat) (l : List Ent) (son : Nat), son ≤ fuel →
    son < l.length → UpInv l son → IsHeap (siftUpF fuel l son) := by
  intro fuel
  induction fuel with
  | zero =>
    intro l son hf _ hinv
    interval_cases son
    intro i hil hi
    exact hinv.1 i hil hi (by omega)
  | succ fuel ih =>
    intro l son hf hlen hinv
    match son with
    | 0 =>
      intro i hil hi
      exact hinv.1 i hil hi (by omega)
    | s + 1 =>
      show IsHeap (if wn l (s / 2) ≤ wn l (s + 1) then l
        else siftUpF fuel (lswap l (s / 2) (s + 1)) (s / 2))
      have hflt : s / 2 < s + 1 := by omega
      have hfl : s / 2 < l.length := by omega
      by_cases hle : wn l (s / 2) ≤ wn l (s + 1)
      · rw [if_pos hle]
        intro i hil hi
        rcases eq_or_ne i (s + 1) with rfl | hne
        · simpa [] using hle
        · exact hinv.1 i hil hi hne
      · rw [if_neg hle]
        have hlt : wn l (s + 1) < wn l (s / 2) := lt_of_not_le hle
        apply ih (lswap l (s / 2) (s + 1)) (s / 2) (by omega) (by rw [lswap_length]; omega)
        have hw : ∀ k, wn (lswap l (s / 2) (s + 1)) k =
            if k = s + 1 then wn l (s / 2) else if k = (s / 2) then wn l (s + 1) else wn l k :=
          fun k => wn_lswap l (s / 2) (s + 1) k hfl hlen
        constructor
        · intro i hil hi hif
          rw [lswap_length] at hil
          rcases eq_or_ne i (s + 1) with rfl | hisucc
          · -- the moved-down old parent at s+1; its parent is (s / 2)
            have hpar : (s + 1 - 1) / 2 = (s / 2) := by omega
            rw [hpar, hw (s / 2), hw (s + 1), if_pos rfl, if_neg (by omega), if_pos rfl]
            exact le_of_lt hlt
          · rcases eq_or_ne ((i - 1) / 2) (s + 1) with hpi | hpi
            · -- i is a child of the old slot s+1
              have hine : i ≠ (s / 2) := by omega
              rw [hpi, hw (s + 1), hw i, if_pos rfl, if_neg hisucc, if_neg hine]
              exact hinv.2 i hil (by omega) (by omega)
            · rcases eq_or_ne ((i - 1) / 2) (s / 2) with hpf | hpf
              · -- i is the sibling of s+1 (or s+1 itself, excluded)
                have hine : i ≠ (s / 2) := by omega
                rw [hpf, hw (s / 2), hw i, if_neg (by omega), if_pos rfl,
                  if_neg hisucc, if_neg hine]
                have h2 := hinv.1 i hil hi hisucc
                rw [hpf] at h2
                exact le_of_lt (lt_of_lt_of_le hlt h2)
              · -- a pair not touching either swapped slot
                have hine : i ≠ (s / 2) := hif
                rw [hw ((i - 1) / 2), hw i, if_neg hpi, if_neg hpf,
                  if_neg hisucc, if_neg hine]
                exact hinv.1 i hil hi hisucc
        · intro c hcl hcpar hfpos
          rw [lswap_length] at hcl
          have hcpos : 0 < c := by omega
          have hpfne1 : ((s / 2) - 1) / 2 ≠ s + 1 := by omega
          have hpfne2 : ((s / 2) - 1) / 2 ≠ (s / 2) := by omega
          have h1 : wn l (((s / 2) - 1) / 2) ≤ wn l (s / 2) :=
            hinv.1 (s / 2) hfl hfpos (by omega)
          rw [hw (((s / 2) - 1) / 2), hw c, if_neg hpfne1, if_neg hpfne2]
          rcases eq_or_ne c (s + 1) with rfl | hcne
          · rw [if_pos rfl]
            exact h1
          · have hcnef : c ≠ (s / 2) := by omega
            rw [if_neg hcne, if_neg hcnef]
            have h2 := hinv.1 c hcl hcpos hcne
            rw [hcpar] at h2
            exact le_trans h1 h2


theorem siftUpF_perm : ∀ (fuel : Nat) (l : List Ent) (son : Nat), son < l.length →
    List.Perm (siftUpF fuel l son) l := by
  intro fuel
  induction fuel with
  | zero =>
    intro l son _
    match son with
    | 0 => exact List.Perm.refl l
    | _ + 1 => exact List.Perm.refl l
  | succ fuel ih =>
    intro l son hlen
    match son with
    | 0 => exact List.Perm.refl l
    | s + 1 =>
      show List.Perm (if wn l (s / 2) ≤ wn l (s + 1) then l
        else siftUpF fuel (lswap l (s / 2) (s + 1)) (s / 2)) l
      by_cases hle : wn l (s / 2) ≤ wn l (s + 1)
      · rw [if_pos hle]
      · rw [if_neg hle]
        have hswap := lswap_perm l (s / 2) (s + 1) (by omega) hlen
        exact List.Perm.trans (ih _ (s / 2) (by rw [lswap_length]; omega)) hswap

theorem wn_append (l m : List Ent) (k : Nat) (hk : k < l.length) :
    wn (l ++ m) k = wn l k := by
  simp only [wn, List.getD_eq_getElem?_getD]
  rw [List.getElem?_append_left hk]

theorem heapPut_isHeap (l : List Ent) (e : Ent) (h : IsHeap l) : IsHeap (heapPut l e) := by
  unfold heapPut siftUp
  apply siftUpF_heap l.length (l ++ [e]) l.length (le_refl _) (by simp)
  constructor
  · intro i hil hi hne
    simp only [List.length_append, List.length_cons, List.length_nil] at hil
    have hi' : i < l.length := by omega
    rw [wn_append l [e] i hi', wn_append l [e] ((i - 1) / 2) (by omega)]
    exact h i hi' hi
  · intro c hcl hcpar hpos
    simp only [List.length_append, List.length_cons, List.length_nil] at hcl
    omega

theorem heapPut_perm (l : List Ent) (e : Ent) : List.Perm (heapPut l e) (l ++ [e]) :=
  siftUpF_perm l.length (l ++ [e]) l.length (by simp)

theorem heapPut_length (l : List Ent) (e : Ent) : (heapPut l e).length = l.length + 1 := by
  have := (heapPut_perm l e).length_eq
  simpa using this

/-- The root of a min-heap is a global minimum. -/
theorem heap_root_min (l : List Ent) (h : IsHeap l) :
    ∀ i, i < l.length → wn l 0 ≤ wn l i := by
  intro i
  induction i using Nat.strong_induction_on with
  | _ i ih =>
    intro hil
    match i with
    | 0 => exact le_refl _
    | j + 1 =>
      have hpar : (j + 1 - 1) / 2 < j + 1 := by omega
      exact le_trans (ih _ hpar (by omega)) (h (j + 1) hil (by omega))

/-! ### Sift-down correctness -/

/-- Intermediate invariant of the sift-down loop: every parent/child pair
    of occupied slots is ordered except possibly the pairs below the moving
    slot `j`, and the element above `j` bounds `j`'s children. -/
def DownInv (l : List Ent) (j : Nat) : Prop :=
  (∀ i, i < l.length → 0 < i → (i - 1) / 2 ≠ j → wn l ((i - 1) / 2) ≤ wn l i) ∧
  (0 < j → ∀ c, c < l.length → (c - 1) / 2 = j → wn l ((j - 1) / 2) ≤ wn l c)

theorem chosenSon_lt (l : List Ent) (f : Nat) (h : 2 * f + 1 < l.length) :
    chosenSon l f < l.length := by
  unfold chosenSon

  split <;> omega

theorem chosenSon_parent (l : List Ent) (f : Nat) :
    (chosenSon l f - 1) / 2 = f := by
  unfold chosenSon

  split <;> omega

theorem chosenSon_ge (l : List Ent) (f : Nat) : 2 * f + 1 ≤ chosenSon l f := by
  unfold chosenSon

  split <;> omega

/-- The chosen child has the smaller deadline of the (up to two) children. -/
theorem chosenSon_min (l : List Ent) (f : Nat) :
    ∀ c, c < l.length → 0 < c → (c - 1) / 2 = f → wn l (chosenSon l f) ≤ wn l c := by
  intro c hcl hcpos hcpar
  have hc : c = 2 * f + 1 ∨ c = 2 * f + 1 + 1 := by omega
  show wn l (if 2 * f + 1 + 1 < l.length ∧ wn l (2 * f + 1 + 1) ≤ wn l (2 * f + 1)
      then 2 * f + 1 + 1 else 2 * f + 1) ≤ wn l c
  by_cases hr : 2 * f + 1 + 1 < l.length ∧ wn l (2 * f + 1 + 1) ≤ wn l (2 * f + 1)
  · rw [if_pos hr]
    rcases hc with rfl | rfl
    · exact hr.2
    · exact le_refl _
  · rw [if_neg hr]
    rcases hc with rfl | rfl
    · exact le_refl _
    · rcases not_and_or.mp hr with hlen | hwn
      · omega
      · exact le_of_lt (lt_of_not_le hwn)

theorem siftDownF_heap : ∀ (fuel : Nat) (l : List Ent) (f : Nat),
    l.length - f ≤ fuel → DownInv l f → IsHeap (siftDownF fuel l f) := by
  intro fuel
  induction fuel with
  | zero =>
    intro l f hf hinv
    show IsHeap l
    intro i hil hi
    exact hinv.1 i hil hi (by omega)
  | succ fuel ih =>
    intro l f hf hinv
    show IsHeap (if 2 * f + 1 ≥ l.length then l
      else if wn l f ≤ wn l (chosenSon l f) then l
      else siftDownF fuel (lswap l f (chosenSon l f)) (chosenSon l f))
    by_cases hleaf : 2 * f + 1 ≥ l.length
    · rw [if_pos hleaf]
      intro i hil hi
      exact hinv.1 i hil hi (by omega)
    · rw [if_neg hleaf]
      push_neg at hleaf
      have hfl : f < l.length := by omega
      have hsl : chosenSon l f < l.length := chosenSon_lt l f hleaf
      have hspar : (chosenSon l f - 1) / 2 = f := chosenSon_parent l f
      have hsge : 2 * f + 1 ≤ chosenSon l f := chosenSon_ge l f
      have hsmin := chosenSon_min l f
      by_cases hle : wn l f ≤ wn l (chosenSon l f)
      · rw [if_pos hle]
        intro i hil hi
        rcases eq_or_ne ((i - 1) / 2) f with hpf | hpf
        · rw [hpf]
          exact le_trans hle (chosenSon_min l f i hil hi hpf)
        · exact hinv.1 i hil hi hpf
      · rw [if_neg hle]
        have hlt : wn l (chosenSon l f) < wn l f := lt_of_not_le hle
        obtain ⟨s, hsdef⟩ : ∃ x, chosenSon l f = x := ⟨_, rfl⟩
        rw [hsdef] at hlt hsl hspar hsge hsmin ⊢
        apply ih (lswap l f s) s (by rw [lswap_length]; omega)
        have hw : ∀ k, wn (lswap l f s) k =
            if k = s then wn l f else if k = f then wn l s else wn l k :=
          fun k => wn_lswap l f s k hfl hsl
        constructor
        · intro i hil hi hips
          rw [lswap_length] at hil
          rcases eq_or_ne i s with rfl | his
          · -- pair (f, s): the swapped pair itself (s was renamed to i)
            rw [hspar, hw f, hw i, if_neg (by omega), if_pos rfl, if_pos rfl]
            exact le_of_lt hlt
          · rcases eq_or_ne ((i - 1) / 2) f with hpf | hpf
            · -- i is the sibling of s under f
              have hif : i ≠ f := by omega
              rw [hpf, hw f, hw i, if_neg (by omega), if_pos rfl, if_neg his, if_neg hif]
              exact hsmin i hil hi hpf
            · rcases eq_or_ne i f with rfl | hif
              · -- pair (parent of f, f): f (renamed to i) holds the old child now
                have h1 : (i - 1) / 2 ≠ s := by omega
                have h2 : (i - 1) / 2 ≠ i := by omega
                rw [hw ((i - 1) / 2), hw i, if_neg h1, if_neg h2, if_neg (by omega),
                  if_pos rfl]
                exact hinv.2 (by omega) s hsl hspar
              · -- pair untouched by the swap
                rw [hw ((i - 1) / 2), hw i, if_neg hips, if_neg hpf, if_neg his,
                  if_neg hif]
                exact hinv.1 i hil hi hpf
        · intro _ c hcl hcpar
          rw [lswap_length] at hcl
          have hcs : c ≠ s := by omega
          have hcf : c ≠ f := by omega
          rw [hspar, hw f, hw c, if_neg (by omega), if_pos rfl, if_neg hcs, if_neg hcf]
          -- c is a grandchild through s; the old pair (s, c) was ordered
          have := hinv.1 c hcl (by omega) (by omega)
          rw [hcpar] at this
          exact this

theorem siftDownF_perm : ∀ (fuel : Nat) (l : List Ent) (f : Nat),
    List.Perm (siftDownF fuel l f) l := by
  intro fuel
  induction fuel with
  | zero => intro l f; exact List.Perm.refl l
  | succ fuel ih =>
    intro l f
    show List.Perm (if 2 * f + 1 ≥ l.length then l
      else if wn l f ≤ wn l (chosenSon l f) then l
      else siftDownF fuel (lswap l f (chosenSon l f)) (chosenSon l f)) l
    by_cases hleaf : 2 * f + 1 ≥ l.length
    · rw [if_pos hleaf]
    · rw [if_neg hleaf]
      push_neg at hleaf
      by_cases hle : wn l f ≤ wn l (chosenSon l f)
      · rw [if_pos hle]
      · rw [if_neg hle]
        exact List.Perm.trans (ih _ _)
          (lswap_perm l f (chosenSon l f) (by omega) (chosenSon_lt l f hleaf))

theorem siftDown_perm (l : List Ent) (f : Nat) : List.Perm (siftDown l f) l :=
  siftDownF_perm l.length l f

/-! ### Correctness of `delAt` at the root, and the extraction loop -/

theorem last_take_perm (l : List Ent) (h : 0 < l.length) :
    List.Perm (l.getD (l.length - 1) default :: l.take (l.length - 1)) l := by
  have hlt : l.length - 1 < l.length := by omega
  have hg : l.getD (l.length - 1) default = l[l.length - 1] := by
    rw [List.getD_eq_getElem?_getD, List.getElem?_eq_getElem hlt]; rfl
  have hdrop : l.drop (l.length - 1) = [l[l.length - 1]] := by
    rw [← List.get_drop_eq_drop l (l.length - 1) hlt]
    have : l.length - 1 + 1 = l.length := by omega
    rw [this, List.drop_length]
  have hsplit : l.take (l.length - 1) ++ [l[l.length - 1]] = l := by
    rw [← hdrop, List.take_append_drop]
  rw [hg]
  have := (List.perm_append_singleton l[l.length - 1] (l.take (l.length - 1)))
  rw [hsplit] at this
  exact this.symm

/-- What `csp_timer_heap_del` removes: deleting the slot-`i` element keeps
    exactly the other elements (as a multiset). -/
theorem delAt_perm (l : List Ent) (i : Nat) (hi : i < l.length) :
    List.Perm (l.getD i default :: delAt l i) l := by
  unfold delAt
  by_cases hlast : i = l.length - 1
  · rw [if_pos hlast, hlast]
    exact last_take_perm l (by omega)
  · rw [if_neg hlast]
    have hi' : i < l.length - 1 := by omega
    have htlen : (l.take (l.length - 1)).length = l.length - 1 := by
      simp
    have hgi : l.getD i default = (l.take (l.length - 1)).getD i default := by
      rw [List.getD_eq_getElem?_getD, List.getD_eq_getElem?_getD,
        List.getElem?_take_of_lt hi']
    have hperm1 := siftDown_perm ((l.take (l.length - 1)).set i
      (l.getD (l.length - 1) default)) i
    have hperm2 := set_getD_perm (l.take (l.length - 1)) i (by omega)
      (l.getD (l.length - 1) default)
    rw [hgi]
    refine List.Perm.trans (List.Perm.cons _ hperm1) (List.Perm.trans hperm2 ?_)
    exact last_take_perm l (by omega)

theorem delAt_length (l : List Ent) (i : Nat) (hi : i < l.length) :
    (delAt l i).length = l.length - 1 := by
  have := (delAt_perm l i hi).length_eq
  simp only [List.length_cons] at this
  omega

/-- `wn` of a set-into-a-take at an untouched, in-range slot. -/
theorem wn_take_set_other (l : List Ent) (x : Ent) (i k n : Nat)
    (hk : k < n) (hki : k ≠ i) :
    wn ((l.take n).set i x) k = wn l k := by
  simp only [wn, List.getD_eq_getElem?_getD]
  rw [List.getElem?_set_ne hki.symm, List.getElem?_take_of_lt hk]

/-- Deleting the root of a heap leaves a heap (this is the case the code
    exercises from `csp_timer_heap_get`; general-index deletion is *not*
    heap-preserving, see `C8` below). -/
theorem delAt_root_isHeap (l : List Ent) (h : IsHeap l) (hne : 0 < l.length) :
    IsHeap (delAt l 0) := by
  unfold delAt
  by_cases hlast : 0 = l.length - 1
  · rw [if_pos hlast, ← hlast]
    intro i hil hi
    simp at hil
  · rw [if_neg hlast]
    apply siftDownF_heap _ _ 0 (le_refl _)
    have htlen : ((l.take (l.length - 1)).set 0 (l.getD (l.length - 1) default)).length
        = l.length - 1 := by
      simp
    constructor
    · intro i hil hi hip
      rw [htlen] at hil
      have hppos : 0 < (i - 1) / 2 := by omega
      rw [wn_take_set_other l _ 0 i _ hil (by omega),
        wn_take_set_other l _ 0 ((i - 1) / 2) _ (by omega) (by omega)]
      exact h i (by omega) hi
    · intro hj
      omega

/-- One 64-bit word, and the bit pattern of the C sentinel `(int64_t)-1`
    that `csp_proc_timer_token_set(proc, -1)` stores. -/
def wordMod : Nat := 2 ^ 64

def sentinel : Nat := 2 ^ 64 - 1

/-- The extraction loop of `csp_timer_heap_get` (timer.c:172-185), acting
    on the heap array together with the token fields of the task objects
    (a map from task identity to token bit pattern): while the heap is
    non-empty and the root has expired, delete the root, store the
    sentinel in its token, and append it to the output list.  Each
    iteration shrinks the heap, so fuel `l.length` runs the loop to its
    exit. -/
def heapGetGo (T : Int) : Nat → List Ent → (Nat → Nat) → (List Ent × (Nat → Nat)) × List Ent
  | 0, l, tk => ((l, tk), [])
  | fuel + 1, l, tk =>
    match l with
    | [] => (([], tk), [])
    | top :: rest =>
      if top.when ≤ T then
        let p := heapGetGo T fuel (delAt (top :: rest) 0)
          (fun i => if i = top.id then sentinel else tk i)
        (p.1, top :: p.2)
      else ((top :: rest, tk), [])

def heapGet (T : Int) (l : List Ent) (tk : Nat → Nat) :
    (List Ent × (Nat → Nat)) × List Ent :=
  heapGetGo T l.length l tk

theorem wn_getElem (l : List Ent) (i : Nat) (hi : i < l.length) :
    wn l i = l[i].when := by
  rw [wn, List.getD_eq_getElem?_getD, List.getElem?_eq_getElem hi]
  rfl

/-- Everything in a heap whose root has not expired is unexpired. -/
theorem heap_all_late (l : List Ent) (h : IsHeap l) (top : Ent) (rest : List Ent)
    (hl : l = top :: rest) (T : Int) (htop : T < top.when) :
    ∀ e ∈ l, T < e.when := by
  intro e he
  obtain ⟨i, hi, rfl⟩ := List.mem_iff_getElem.mp he
  have h0 := heap_root_min l h i hi
  rw [wn_getElem l i hi] at h0
  have hw0 : wn l 0 = top.when := by rw [hl]; rfl
  omega

/-- Full specification of the extraction loop: assuming the heap
    invariant, it extracts exactly the expired tasks (every extracted
    deadline is ≤ T, every retained deadline is > T, and together they
    are a permutation of the original array), the retained array is still
    a heap, every extracted task's token field holds the sentinel
    afterwards, and no other task's token is touched. -/
theorem heapGetGo_spec (T : Int) : ∀ (fuel : Nat) (l : List Ent) (tk : Nat → Nat),
    l.length ≤ fuel → IsHeap l →
    (∀ e ∈ (heapGetGo T fuel l tk).2, e.when ≤ T) ∧
    (∀ e ∈ (heapGetGo T fuel l tk).1.1, T < e.when) ∧
    List.Perm ((heapGetGo T fuel l tk).2 ++ (heapGetGo T fuel l tk).1.1) l ∧
    IsHeap (heapGetGo T fuel l tk).1.1 ∧
    (∀ e ∈ (heapGetGo T fuel l tk).2, (heapGetGo T fuel l tk).1.2 e.id = sentinel) ∧
    (∀ j, j ∉ (heapGetGo T fuel l tk).2.map Ent.id →
      (heapGetGo T fuel l tk).1.2 j = tk j) := by
  intro fuel
  induction fuel with
  | zero =>
    intro l tk hf hheap
    have hl : l = [] := List.length_eq_zero.mp (by omega)
    subst hl
    refine ⟨by simp [heapGetGo], by simp [heapGetGo], by simp [heapGetGo],
      ?_, by simp [heapGetGo], by simp [heapGetGo]⟩
    show IsHeap []
    intro i hil hi
    simp at hil
  | succ fuel ih =>
    intro l tk hf hheap
    match l with
    | [] =>
      refine ⟨by simp [heapGetGo], by simp [heapGetGo], by simp [heapGetGo],
        ?_, by simp [heapGetGo], by simp [heapGetGo]⟩
      show IsHeap []
      intro i hil hi
      simp at hil
    | top :: rest =>
      show _ ∧ _ ∧ _ ∧ _ ∧ _ ∧ _
      by_cases hexp : top.when ≤ T
      · -- the root expired: it is deleted, token invalidated, and recursed
        have hgo : heapGetGo T (fuel + 1) (top :: rest) tk =
            (let p := heapGetGo T fuel (delAt (top :: rest) 0)
              (fun i => if i = top.id then sentinel else tk i)
             (p.1, top :: p.2)) := by
          simp only [heapGetGo, if_pos hexp]
        have hlen0 : 0 < (top :: rest).length := by simp
        have hdlen : (delAt (top :: rest) 0).length = rest.length := by
          rw [delAt_length _ 0 hlen0]
          simp
        have hdheap : IsHeap (delAt (top :: rest) 0) :=
          delAt_root_isHeap _ hheap hlen0
        have hdperm : List.Perm (top :: delAt (top :: rest) 0) (top :: rest) := by
          have := delAt_perm (top :: rest) 0 hlen0
          simpa using this
        obtain ⟨ih1, ih2, ih3, ih4, ih5, ih6⟩ := ih (delAt (top :: rest) 0)
          (fun i => if i = top.id then sentinel else tk i)
          (by simp at hf; omega) hdheap
        rw [hgo]
        refine ⟨?_, ih2, ?_, ih4, ?_, ?_⟩
        · intro e he
          rcases List.mem_cons.mp he with rfl | he'
          · exact hexp
          · exact ih1 e he'
        · -- permutation: extracted ++ retained ≈ original
          show List.Perm ((top :: _) ++ _) (top :: rest)
          refine List.Perm.trans ?_ hdperm
          exact List.Perm.cons top ih3
        · intro e he
          rcases List.mem_cons.mp he with rfl | he'
          · by_cases hin : e.id ∈ (heapGetGo T fuel (delAt (e :: rest) 0)
                (fun i => if i = e.id then sentinel else tk i)).2.map Ent.id
            · obtain ⟨e', he', hid⟩ := List.mem_map.mp hin
              have h5 := ih5 e' he'
              rw [hid] at h5
              exact h5
            · rw [ih6 e.id hin]
              simp
          · exact ih5 e he'
        · intro j hj
          simp only [List.map_cons, List.mem_cons, not_or] at hj
          rw [ih6 j (by simpa using hj.2)]
          rw [if_neg hj.1]
      · -- the root has not expired: nothing is extracted
        have hgo : heapGetGo T (fuel + 1) (top :: rest) tk = ((top :: rest, tk), []) := by
          simp only [heapGetGo, if_neg hexp]
        rw [hgo]
        refine ⟨by simp, ?_, by simp, hheap, by simp, by simp⟩
        intro e he
        exact heap_all_late (top :: rest) hheap top rest rfl T (by omega) e he

/-- Same, phrased for the wrapper `heapGet`. -/
theorem heapGet_spec (T : Int) (l : List Ent) (tk : Nat → Nat) (hheap : IsHeap l) :
    (∀ e ∈ (heapGet T l tk).2, e.when ≤ T) ∧
    (∀ e ∈ (heapGet T l tk).1.1, T < e.when) ∧
    List.Perm ((heapGet T l tk).2 ++ (heapGet T l tk).1.1) l ∧
    IsHeap (heapGet T l tk).1.1 ∧
    (∀ e ∈ (heapGet T l tk).2, (heapGet T l tk).1.2 e.id = sentinel) ∧
    (∀ j, j ∉ (heapGet T l tk).2.map Ent.id → (heapGet T l tk).1.2 j = tk j) :=
  heapGetGo_spec T l.length l tk (le_refl _) hheap

/-! ### Extraction facts that need no heap hypothesis -/

/-- Membership in `delAt` implies membership in the original array. -/
theorem delAt_subset (l : List Ent) (i : Nat) : ∀ e ∈ delAt l i, e ∈ l := by
  intro e he
  unfold delAt at he
  by_cases hlast : i = l.length - 1
  · rw [if_pos hlast] at he
    exact List.mem_of_mem_take he
  · rw [if_neg hlast] at he
    have := (siftDown_perm _ i).mem_iff.mp he
    rcases List.mem_or_eq_of_mem_set this with hmem | rfl
    · exact List.mem_of_mem_take hmem
    · by_cases hlen : 0 < l.length
      · have : l.getD (l.length - 1) default = l[l.length - 1] := by
          rw [List.getD_eq_getElem?_getD, List.getElem?_eq_getElem (by omega)]; rfl
        rw [this]
        exact List.getElem_mem _
      · simp at hlen
        rw [hlen] at this
        simp at this

/-- The extraction loop always splits the array into the extracted list
    and the retained array, whatever the heap looks like (the heap
    property is not needed for this bookkeeping fact). -/
theorem heapGetGo_perm (T : Int) : ∀ (fuel : Nat) (l : List Ent) (tk : Nat → Nat),
    List.Perm ((heapGetGo T fuel l tk).2 ++ (heapGetGo T fuel l tk).1.1) l := by
  intro fuel
  induction fuel with
  | zero => intro l tk; exact List.Perm.refl l
  | succ fuel ih =>
    intro l tk
    match l with
    | [] => exact List.Perm.refl []
    | top :: rest =>
      by_cases hexp : top.when ≤ T
      · have hgo : heapGetGo T (fuel + 1) (top :: rest) tk =
            (let p := heapGetGo T fuel (delAt (top :: rest) 0)
              (fun i => if i = top.id then sentinel else tk i)
             (p.1, top :: p.2)) := by
          simp only [heapGetGo, if_pos hexp]
        rw [hgo]
        have hdperm : List.Perm (top :: delAt (top :: rest) 0) (top :: rest) := by
          have := delAt_perm (top :: rest) 0 (by simp)
          simpa using this
        exact List.Perm.trans (List.Perm.cons top (ih _ _)) hdperm
      · have hgo : heapGetGo T (fuel + 1) (top :: rest) tk = ((top :: rest, tk), []) := by
          simp only [heapGetGo, if_neg hexp]
        rw [hgo]
        exact List.Perm.refl _

/-- Every task extracted by the loop has its token field holding the
    sentinel afterwards, and no other token field is written; again no
    heap hypothesis is needed. -/
theorem heapGetGo_tokens (T : Int) : ∀ (fuel : Nat) (l : List Ent) (tk : Nat → Nat),
    (∀ e ∈ (heapGetGo T fuel l tk).2, (heapGetGo T fuel l tk).1.2 e.id = sentinel) ∧
    (∀ j, j ∉ (heapGetGo T fuel l tk).2.map Ent.id →
      (heapGetGo T fuel l tk).1.2 j = tk j) := by
  intro fuel
  induction fuel with
  | zero => intro l tk; exact ⟨by simp [heapGetGo], fun j _ => rfl⟩
  | succ fuel ih =>
    intro l tk
    match l with
    | [] => exact ⟨by simp [heapGetGo], fun j _ => rfl⟩
    | top :: rest =>
      by_cases hexp : top.when ≤ T
      · have hgo : heapGetGo T (fuel + 1) (top :: rest) tk =
            (let p := heapGetGo T fuel (delAt (top :: rest) 0)
              (fun i => if i = top.id then sentinel else tk i)
             (p.1, top :: p.2)) := by
          simp only [heapGetGo, if_pos hexp]
        obtain ⟨ih5, ih6⟩ := ih (delAt (top :: rest) 0)
          (fun i => if i = top.id then sentinel else tk i)
        rw [hgo]
        constructor
        · intro e he
          rcases List.mem_cons.mp he with rfl | he'
          · by_cases hin : e.id ∈ (heapGetGo T fuel (delAt (e :: rest) 0)
                (fun i => if i = e.id then sentinel else tk i)).2.map Ent.id
            · obtain ⟨e', he', hid⟩ := List.mem_map.mp hin
              have h5 := ih5 e' he'
              rw [hid] at h5
              exact h5
            · rw [ih6 e.id hin]
              simp
          · exact ih5 e he'
        · intro j hj
          simp only [List.map_cons, List.mem_cons, not_or] at hj
          rw [ih6 j (by simpa using hj.2)]
          rw [if_neg hj.1]
      · have hgo : heapGetGo T (fuel + 1) (top :: rest) tk = ((top :: rest, tk), []) := by
          simp only [heapGetGo, if_neg hexp]
        rw [hgo]
        exact ⟨by simp, fun j _ => rfl⟩

/-! ### The per-heap state machine: put / get / cancel on one heap

    The state gathers the heap array, the token field of every task
    object (`tokens`, indexed by task identity), the heap's running token
    counter, and the log of `csp_proc_destroy` calls made so far. -/

structure TState where
  procs : List Ent
  tokens : Nat → Nat
  counter : Nat
  destroyed : List Nat

/-- `heap->token = (uint64_t)pid << 53` (timer.c:77): the counter seed,
    as a 64-bit pattern. -/
def tokenSeed (pid : Nat) : Nat := (pid * 2 ^ 53) % wordMod

/-- The token handed out by the `k`-th `csp_timer_heap_put` on the heap
    seeded with identity `pid` (timer.c:98-99 issues `heap->token` and
    then increments it). -/
def tokenAt (pid k : Nat) : Nat := (tokenSeed pid + k) % wordMod

/-- `csp_timer_heap_init`'s effect on the modelled state (timer.c:70-82):
    empty array, counter seeded from the heap identity; the task objects'
    token fields (`tk`) are whatever they already were. -/
def initState (pid : Nat) (tk : Nat → Nat) : TState :=
  { procs := [], tokens := tk, counter := tokenSeed pid, destroyed := [] }

/-- `csp_timer_heap_put` (timer.c:85-116): hand the counter to the task's
    token field, increment the counter (64-bit wrap), append the task and
    sift up. -/
def putS (s : TState) (tid : Nat) (d : Int) : TState :=
  { s with
    tokens := fun i => if i = tid then s.counter else s.tokens i,
    counter := (s.counter + 1) % wordMod,
    procs := heapPut s.procs ⟨tid, d⟩ }

/-- The slot index the code reads from `proc->timer.idx`; its swaps keep
    that field equal to the task's position in the array. -/
def idIndex (l : List Ent) (tid : Nat) : Nat := l.findIdx (fun e => e.id == tid)

/-- `csp_timer_heap_get`'s effect on array and tokens, at a given
    approximated-now `T` (timer.c:146-194): run the extraction loop. -/
def getS (T : Int) (s : TState) : TState × List Ent :=
  let r := heapGet T s.procs s.tokens
  ({ s with procs := r.1.1, tokens := r.1.2 }, r.2)

/-- `csp_timer_cancel` (timer.c:253-267): CAS the task's token field from
    the handle's token to the sentinel; on mismatch do nothing and fail,
    on success delete the task at its recorded slot and destroy it. -/
def cancelS (s : TState) (tid tok : Nat) : TState × Bool :=
  if s.tokens tid = tok then
    ({ procs := delAt s.procs (idIndex s.procs tid),
       tokens := fun i => if i = tid then sentinel else s.tokens i,
       counter := s.counter,
       destroyed := s.destroyed ++ [tid] }, true)
  else (s, false)

/-- One public step on a heap: arm a timer, poll, or cancel. -/
inductive Step where
  | put (tid : Nat) (d : Int)
  | poll (T : Int)
  | cancel (tid tok : Nat)

def applyStep (s : TState) : Step → TState
  | .put tid d => putS s tid d
  | .poll T => (getS T s).1
  | .cancel tid tok => (cancelS s tid tok).1

def applySteps (s : TState) : List Step → TState
  | [] => s
  | st :: rest => applySteps (applyStep s st) rest

/-! ### Cancellation correctness -/

theorem idIndex_spec (l : List Ent) (tid : Nat) (hmem : tid ∈ l.map Ent.id) :
    idIndex l tid < l.length ∧ (l.getD (idIndex l tid) default).id = tid := by
  obtain ⟨e, he, hid⟩ := List.mem_map.mp hmem
  have hex : ∃ x ∈ l, (fun e => e.id == tid) x = true := ⟨e, he, by simp [hid]⟩
  have hlt := List.findIdx_lt_length_of_exists hex
  refine ⟨hlt, ?_⟩
  have hp := @List.findIdx_get _ (fun e => e.id == tid) l hlt
  have hg : l.getD (idIndex l tid) default
      = l.get ⟨l.findIdx (fun e => e.id == tid), hlt⟩ := by
    rw [idIndex, List.getD_eq_getElem?_getD, List.getElem?_eq_getElem hlt]
    rfl
  rw [hg]
  simpa using hp

/-- Deleting at the slot `csp_timer_cancel` reads from `timer.idx` removes
    exactly the cancelled task (task identities being distinct). -/
theorem cancel_removes (l : List Ent) (tid : Nat) (hnd : (l.map Ent.id).Nodup)
    (hmem : tid ∈ l.map Ent.id) :
    tid ∉ (delAt l (idIndex l tid)).map Ent.id ∧
    List.Perm (tid :: (delAt l (idIndex l tid)).map Ent.id) (l.map Ent.id) := by
  obtain ⟨hlt, hid⟩ := idIndex_spec l tid hmem
  have hperm := (delAt_perm l (idIndex l tid) hlt).map Ent.id
  simp only [List.map_cons] at hperm
  rw [hid] at hperm
  have hnd' : (tid :: (delAt l (idIndex l tid)).map Ent.id).Nodup :=
    (hperm.nodup_iff).mpr hnd
  exact ⟨(List.nodup_cons.mp hnd').1, hperm⟩

/-- C3 helper, exposed for the C4 trace argument as well: a successful
    cancel removes the task from the heap array. -/
theorem cancelS_spec (s : TState) (tid tok : Nat)
    (hnd : (s.procs.map Ent.id).Nodup) (hmem : tid ∈ s.procs.map Ent.id) :
    (s.tokens tid ≠ tok → cancelS s tid tok = (s, false)) ∧
    (s.tokens tid = tok →
      (cancelS s tid tok).2 = true ∧
      (cancelS s tid tok).1.tokens tid = sentinel ∧
      tid ∉ (cancelS s tid tok).1.procs.map Ent.id ∧
      List.Perm (tid :: (cancelS s tid tok).1.procs.map Ent.id) (s.procs.map Ent.id) ∧
      (cancelS s tid tok).1.destroyed = s.destroyed ++ [tid]) := by
  constructor
  · intro hne
    unfold cancelS
    rw [if_neg hne]
  · intro heq
    unfold cancelS
    rw [if_pos heq]
    obtain ⟨hrm, hperm⟩ := cancel_removes s.procs tid hnd hmem
    exact ⟨rfl, by simp, hrm, hperm, rfl⟩

/-! ### Step-level frame facts used by the at-most-once argument -/

theorem putS_ids (s : TState) (tid : Nat) (d : Int) :
    List.Perm ((putS s tid d).procs.map Ent.id) (s.procs.map Ent.id ++ [tid]) := by
  have := (heapPut_perm s.procs ⟨tid, d⟩).map Ent.id
  simpa using this

theorem getS_keep_sub (T : Int) (s : TState) :
    ∀ e ∈ (getS T s).1.procs, e ∈ s.procs := by
  intro e he
  have hperm := heapGetGo_perm T s.procs.length s.procs s.tokens
  exact hperm.mem_iff.mp (List.mem_append.mpr (Or.inr he))

theorem getS_extract_sub (T : Int) (s : TState) :
    ∀ e ∈ (getS T s).2, e ∈ s.procs := by
  intro e he
  have hperm := heapGetGo_perm T s.procs.length s.procs s.tokens
  exact hperm.mem_iff.mp (List.mem_append.mpr (Or.inl he))

theorem cancelS_sub (s : TState) (tid tok : Nat) :
    ∀ e ∈ (cancelS s tid tok).1.procs, e ∈ s.procs := by
  intro e he
  unfold cancelS at he
  by_cases hc : s.tokens tid = tok
  · rw [if_pos hc] at he
    exact delAt_subset _ _ e he
  · rw [if_neg hc] at he
    exact he

/-- A task that is not heap-resident stays non-resident across any run of
    steps that never re-arms it. -/
theorem notResident_invariant (tid : Nat) : ∀ (trace : List Step) (s : TState),
    tid ∉ s.procs.map Ent.id → (∀ d, Step.put tid d ∉ trace) →
    tid ∉ (applySteps s trace).procs.map Ent.id := by
  intro trace
  induction trace with
  | nil => intro s hn _; exact hn
  | cons st rest ih =>
    intro s hn hput
    have hput' : ∀ d, Step.put tid d ∉ rest := by
      intro d hd
      exact hput d (List.mem_cons.mpr (Or.inr hd))
    apply ih (applyStep s st) _ hput'
    match st with
    | .put tid' d =>
      have hne : tid' ≠ tid := by
        intro h
        subst h
        exact hput d (List.mem_cons.mpr (Or.inl rfl))
      show tid ∉ (putS s tid' d).procs.map Ent.id
      intro hmem
      rcases (putS_ids s tid' d).mem_iff.mp hmem |> List.mem_append.mp with h | h
      · exact hn h
      · simp at h
        exact hne h.symm
    | .poll T =>
      show tid ∉ (getS T s).1.procs.map Ent.id
      intro hmem
      obtain ⟨e, he, hid⟩ := List.mem_map.mp hmem
      exact hn (List.mem_map.mpr ⟨e, getS_keep_sub T s e he, hid⟩)
    | .cancel tid' tok =>
      show tid ∉ (cancelS s tid' tok).1.procs.map Ent.id
      intro hmem
      obtain ⟨e, he, hid⟩ := List.mem_map.mp hmem
      exact hn (List.mem_map.mpr ⟨e, cancelS_sub s tid' tok e he, hid⟩)

/-- A poll never returns a task that is not heap-resident. -/
theorem poll_skips_nonresident (T : Int) (s : TState) (tid : Nat)
    (hn : tid ∉ s.procs.map Ent.id) : ∀ e ∈ (getS T s).2, e.id ≠ tid := by
  intro e he h
  exact hn (List.mem_map.mpr ⟨e, getS_extract_sub T s e he, h⟩)

/-! ### The intrusive expired list: which link fields are written

    `csp_timer_heap_get` (timer.c:177-183) builds its output list with
    `tail->next = top; top->pre = tail;` for every appended task after the
    first, and `csp_timer_poll` (timer.c:240-247) splices consecutive
    non-empty per-heap lists with `(*end)->next = head; head->pre = *end;`.
    We log every link-field store as a pair (task identity, field), with
    `true` for `next` and `false` for `pre`. -/

/-- Link stores performed by the extraction loop on one heap, given the
    identities of the extracted tasks in extraction order. -/
def linkWrites : List Nat → List (Nat × Bool)
  | [] => []
  | [_] => []
  | a :: b :: rest => (a, true) :: (b, false) :: linkWrites (b :: rest)

/-- `csp_timer_poll`'s aggregation loop: visit the per-heap results in
    order, skip empty ones (`n > 0` guard), start the combined list on the
    first non-empty result, and splice each further non-empty result onto
    the current tail.  The accumulator is the `(*start, *end)` pair; the
    second component is the log of link stores. -/
def pollGo : List (List Nat) → Option (Nat × Nat) → List (Nat × Bool) →
    Option (Nat × Nat) × List (Nat × Bool)
  | [], acc, log => (acc, log)
  | r :: rest, acc, log =>
    if r.isEmpty then pollGo rest acc log
    else match acc with
      | none => pollGo rest (some (r.headD 0, r.getLastD 0)) (log ++ linkWrites r)
      | some (h, t) => pollGo rest (some (h, r.getLastD 0))
          (log ++ linkWrites r ++ [(t, true), (r.headD 0, false)])

def pollWrites (rs : List (List Nat)) : Option (Nat × Nat) × List (Nat × Bool) :=
  pollGo rs none []

theorem linkWrites_pre (r : List Nat) : ∀ x, (x, false) ∈ linkWrites r → x ∈ r.tail := by
  induction r with
  | nil => intro x hx; simp [linkWrites] at hx
  | cons a r ih =>
    intro x hx
    match r with
    | [] => simp [linkWrites] at hx
    | b :: rest =>
      rw [linkWrites] at hx
      rcases List.mem_cons.mp hx with h1 | hx
      · simp at h1
      · rcases List.mem_cons.mp hx with h2 | hx
        · simp at h2
          subst h2
          exact List.mem_cons_self _ _
        · have := ih x hx
          exact List.mem_cons.mpr (Or.inr this)

theorem linkWrites_next (r : List Nat) : ∀ x, (x, true) ∈ linkWrites r → x ∈ r.dropLast := by
  induction r with
  | nil => intro x hx; simp [linkWrites] at hx
  | cons a r ih =>
    intro x hx
    match r with
    | [] => simp [linkWrites] at hx
    | b :: rest =>
      rw [linkWrites] at hx
      have hd : (a :: b :: rest).dropLast = a :: (b :: rest).dropLast := rfl
      rw [hd]
      rcases List.mem_cons.mp hx with h1 | hx
      · simp at h1
        subst h1
        exact List.mem_cons_self _ _
      · rcases List.mem_cons.mp hx with h2 | hx
        · simp at h2
        · exact List.mem_cons.mpr (Or.inr (ih x hx))

theorem headD_append (J r : List Nat) (h : J ≠ []) : (J ++ r).headD 0 = J.headD 0 := by
  cases J with
  | nil => exact absurd rfl h
  | cons a J => rfl

theorem tail_append_left (J r : List Nat) (h : J ≠ []) : (J ++ r).tail = J.tail ++ r := by
  cases J with
  | nil => exact absurd rfl h
  | cons a J => rfl

theorem getLastD_append (J r : List Nat) (h : r ≠ []) :
    (J ++ r).getLastD 0 = r.getLastD 0 := by
  rw [List.getLastD_eq_getLast?, List.getLastD_eq_getLast?,
    List.getLast?_append_of_ne_nil J h]

theorem headD_mem (r : List Nat) (h : r ≠ []) : r.headD 0 ∈ r := by
  cases r with
  | nil => exact absurd rfl h
  | cons a r => exact List.mem_cons_self a r

theorem getLastD_mem (r : List Nat) (h : r ≠ []) : r.getLastD 0 ∈ r := by
  rw [List.getLastD_eq_getLast?, List.getLast?_eq_getLast r h]
  exact List.getLast_mem h

/-- Invariant of the aggregation loop: once the combined list is the
    non-empty `J`, the accumulator holds `J`'s ends, every `pre` store so
    far targeted a task in `J.tail`, and every `next` store targeted a
    task in `J.dropLast`. -/
theorem pollGo_inv : ∀ (rs : List (List Nat)) (J : List Nat) (log : List (Nat × Bool)),
    J ≠ [] →
    (∀ x, (x, false) ∈ log → x ∈ J.tail) →
    (∀ x, (x, true) ∈ log → x ∈ J.dropLast) →
    (pollGo rs (some (J.headD 0, J.getLastD 0)) log).1
        = some ((J ++ rs.join).headD 0, (J ++ rs.join).getLastD 0) ∧
    (∀ x, (x, false) ∈ (pollGo rs (some (J.headD 0, J.getLastD 0)) log).2 →
        x ∈ (J ++ rs.join).tail) ∧
    (∀ x, (x, true) ∈ (pollGo rs (some (J.headD 0, J.getLastD 0)) log).2 →
        x ∈ (J ++ rs.join).dropLast) := by
  intro rs
  induction rs with
  | nil =>
    intro J log hJ hpre hnext
    simp only [List.join_nil, List.append_nil]
    exact ⟨rfl, hpre, hnext⟩
  | cons r rest ih =>
    intro J log hJ hpre hnext
    by_cases hr : r.isEmpty
    · have hrnil : r = [] := List.isEmpty_iff.mp hr
      subst hrnil
      have hgo : pollGo ([] :: rest) (some (J.headD 0, J.getLastD 0)) log
          = pollGo rest (some (J.headD 0, J.getLastD 0)) log := by
        simp [pollGo]
      rw [hgo]
      have := ih J log hJ hpre hnext
      simpa using this
    · have hrne : r ≠ [] := by
        intro h
        rw [h] at hr
        simp at hr
      have hgo : pollGo (r :: rest) (some (J.headD 0, J.getLastD 0)) log
          = pollGo rest (some (J.headD 0, r.getLastD 0))
              (log ++ linkWrites r ++ [(J.getLastD 0, true), (r.headD 0, false)]) := by
        rw [pollGo]
        rw [if_neg (by simpa using hrne)]
      rw [hgo]
      have hJr : J ++ r ≠ [] := by
        intro h
        exact hJ (List.append_eq_nil.mp h).1
      have hhead : (J ++ r).headD 0 = J.headD 0 := headD_append J r hJ
      have hlast : (J ++ r).getLastD 0 = r.getLastD 0 := getLastD_append J r hrne
      have hpre' : ∀ x, (x, false) ∈ log ++ linkWrites r
          ++ [(J.getLastD 0, true), (r.headD 0, false)] → x ∈ (J ++ r).tail := by
        intro x hx
        rw [tail_append_left J r hJ]
        rcases List.mem_append.mp hx with hx | hx
        · rcases List.mem_append.mp hx with hx | hx
          · exact List.mem_append.mpr (Or.inl (hpre x hx))
          · exact List.mem_append.mpr (Or.inr (List.mem_of_mem_tail (linkWrites_pre r x hx)))
        · simp at hx
          subst hx
          refine List.mem_append.mpr (Or.inr ?_)
          rw [← List.headD_eq_head?_getD]
          exact headD_mem r hrne
      have hnext' : ∀ x, (x, true) ∈ log ++ linkWrites r
          ++ [(J.getLastD 0, true), (r.headD 0, false)] → x ∈ (J ++ r).dropLast := by
        intro x hx
        rw [List.dropLast_append_of_ne_nil J hrne]
        rcases List.mem_append.mp hx with hx | hx
        · rcases List.mem_append.mp hx with hx | hx
          · exact List.mem_append.mpr (Or.inl (List.dropLast_subset J (hnext x hx)))
          · exact List.mem_append.mpr (Or.inr (linkWrites_next r x hx))
        · simp at hx
          subst hx
          refine List.mem_append.mpr (Or.inl ?_)
          rw [← List.getLastD_eq_getLast?]
          exact getLastD_mem J hJ
      have := ih (J ++ r) _ hJr hpre' hnext'
      rw [hhead, hlast] at this
      simpa [List.join_cons, List.append_assoc] using this

theorem pollWrites_none (rs : List (List Nat)) (h : rs.join = []) :
    pollWrites rs = (none, []) := by
  unfold pollWrites
  induction rs with
  | nil => rfl
  | cons r rest ih =>
    simp only [List.join_cons] at h
    have hr : r = [] := (List.append_eq_nil.mp h).1
    have hrest : rest.join = [] := (List.append_eq_nil.mp h).2
    subst hr
    have hgo : pollGo ([] :: rest) none [] = pollGo rest none [] := by simp [pollGo]
    rw [hgo]
    exact ih hrest

/-- The aggregation produces the joined list's ends, and every `pre`
    store hit the tail, every `next` store the init, of the joined list. -/
theorem pollWrites_spec : ∀ (rs : List (List Nat)), rs.join ≠ [] →
    (pollWrites rs).1 = some ((rs.join).headD 0, (rs.join).getLastD 0) ∧
    (∀ x, (x, false) ∈ (pollWrites rs).2 → x ∈ (rs.join).tail) ∧
    (∀ x, (x, true) ∈ (pollWrites rs).2 → x ∈ (rs.join).dropLast) := by
  intro rs
  induction rs with
  | nil => intro h; exact absurd rfl h
  | cons r rest ih =>
    intro h
    by_cases hr : r = []
    · subst hr
      have hgo : pollWrites ([] :: rest) = pollWrites rest := by
        unfold pollWrites
        simp [pollGo]
      rw [hgo]
      simp only [List.join_cons, List.nil_append]
      simp only [List.join_cons, List.nil_append] at h
      exact ih h
    · have hgo : pollWrites (r :: rest)
          = pollGo rest (some (r.headD 0, r.getLastD 0)) ([] ++ linkWrites r) := by
        unfold pollWrites
        rw [pollGo, if_neg (by simpa using hr)]
      rw [hgo]
      have := pollGo_inv rest r ([] ++ linkWrites r) hr
        (by
          intro x hx
          simp only [List.nil_append] at hx
          exact linkWrites_pre r x hx)
        (by
          intro x hx
          simp only [List.nil_append] at hx
          exact linkWrites_next r x hx)
      simpa [List.join_cons] using this

/-! ### Allocation sizes of init and grow (for C1) -/

/-- `sizeof(csp_proc_t *)` on the code's only supported target (the
    inline `rdtsc` assembly makes it x86-64). -/
def ptrSize : Nat := 8

/-- `csp_timer_heap_default_cap` (timer.c:34). -/
def defaultCap : Nat := 64

/-- Bytes requested by `csp_timer_heap_init`'s
    `malloc(sizeof(csp_proc_t *) * heap->cap)` (timer.c:75). -/
def initAllocBytes (cap : Nat) : Nat := ptrSize * cap

/-- The doubled capacity `size_t cap = heap->cap << 1` that
    `csp_timer_heap_put` adopts when full (timer.c:91, 96). -/
def grownCap (cap : Nat) : Nat := cap * 2

/-- Bytes requested by the growth path `realloc(heap->procs, cap)`
    (timer.c:92): the byte count passed is the new capacity itself,
    without the `sizeof(csp_proc_t *)` factor used at init. -/
def growReallocBytes (cap : Nat) : Nat := grownCap cap

/-! ### The heap registry (for C6) -/

/-- Observable allocation state after `csp_timer_heaps_init` /
    `csp_timer_heaps_destroy`: whether the registry array is allocated,
    which heaps' backing arrays are allocated, the stored
    `csp_timer_heaps.len`, and the boolean the call returned. -/
structure RegState where
  registryAllocated : Bool
  liveHeaps : List Nat
  len : Nat
  ok : Bool
  deriving Repr, DecidableEq

/-- The init loop of `csp_timer_heaps_init` (timer.c:210-215): initialize
    heap after heap; on the first failure record nothing but the failing
    index and stop. -/
def heapsInitFold (heapOk : Nat → Bool) : List Nat → List Nat → List Nat × Option Nat
  | live, [] => (live, none)
  | live, i :: rest =>
    if heapOk i then heapsInitFold heapOk (live ++ [i]) rest else (live, some i)

/-- `csp_timer_heaps_init` (timer.c:202-218) with the success of each
    allocation supplied as an oracle (`registryOk` for the registry
    malloc, `heapOk i` for heap `i`'s array malloc).  On a heap failure
    the code sets `csp_timer_heaps.len = i` and returns false; it frees
    neither the already-initialized heaps nor the registry. -/
def heapsInit (np : Nat) (registryOk : Bool) (heapOk : Nat → Bool) : RegState :=
  if registryOk then
    match heapsInitFold heapOk [] (List.range np) with
    | (live, none) => ⟨true, live, np, true⟩
    | (live, some i) => ⟨true, live, i, false⟩
  else ⟨false, [], 0, false⟩

/-- `csp_timer_heaps_destroy` (timer.c:220-225): free the arrays of heaps
    `[0, len)`, then the registry. -/
def heapsDestroy (r : RegState) : RegState :=
  { r with registryAllocated := false,
           liveHeaps := r.liveHeaps.filter (fun i => decide (r.len ≤ i)) }

theorem heapsInitFold_fail (heapOk : Nat → Bool) : ∀ (rest live l2 : List Nat) (i : Nat),
    heapsInitFold heapOk live rest = (l2, some i) →
    ∃ pre suf, rest = pre ++ i :: suf ∧ (∀ x ∈ pre, heapOk x = true) ∧
      heapOk i = false ∧ l2 = live ++ pre := by
  intro rest
  induction rest with
  | nil =>
    intro live l2 i h
    simp [heapsInitFold] at h
  | cons j rest ih =>
    intro live l2 i h
    rw [heapsInitFold] at h
    by_cases hj : heapOk j
    · rw [if_pos hj] at h
      obtain ⟨pre, suf, hsplit, hpre, hfail, hl2⟩ := ih (live ++ [j]) l2 i h
      refine ⟨j :: pre, suf, by rw [hsplit]; simp, ?_, hfail, by simp [hl2]⟩
      intro x hx
      rcases List.mem_cons.mp hx with rfl | hx
      · exact hj
      · exact hpre x hx
    · rw [if_neg hj] at h
      obtain ⟨h1, h2⟩ := Prod.mk.injEq .. ▸ h
      injection h
      rename_i hl hsome
      injection hsome
      rename_i hij
      exact ⟨[], rest, by rw [hij]; simp, by simp, by subst hij; simpa using hj,
        by rw [← hl]; simp⟩

/-! ### Token arithmetic (for C7) -/

/-! ### The clock approximator (for C9)

    `csp_timer_heap_get` (timer.c:150-167) computes its notion of "now"
    before extracting: with the heap empty it returns immediately; with
    `duration = rdtsc_now - heap->clock < CLOCKS_PER_SEC` it scales the
    elapsed cycles, `heap->time + duration / CLOCKS_PER_SEC *
    csp_timer_second`, leaving the stored baseline untouched; otherwise
    it refetches `csp_timer_now()` and re-baselines.  The C expression
    uses `double` arithmetic; we model it with exact rationals (the
    values of `CLOCKS_PER_SEC`, `csp_timer_second` and `csp_timer_now`
    live outside src/, so they are parameters here). -/

structure ClockState where
  time : Int
  clock : Int
  deriving Repr, DecidableEq

def heapGetClock (cps second : Int) (procs : List Ent) (cs : ClockState)
    (clockNow trueNow : Int) : Option (ℚ × ClockState) :=
  if procs.isEmpty then none
  else if clockNow - cs.clock < cps then
    some ((cs.time : ℚ) + (((clockNow - cs.clock : Int) : ℚ) / (cps : ℚ)) * (second : ℚ),
      cs)
  else some ((trueNow : ℚ), ⟨trueNow, clockNow⟩)

theorem tokenAt_eq (p k : Nat) (hp : p < 2 ^ 11) (hk : k < 2 ^ 53) :
    tokenAt p k = p * 2 ^ 53 + k := by
  unfold tokenAt tokenSeed wordMod
  have e1 : (2 : Nat) ^ 11 = 2048 := by norm_num
  have e2 : (2 : Nat) ^ 53 = 9007199254740992 := by norm_num
  have e3 : (2 : Nat) ^ 64 = 18446744073709551616 := by norm_num
  rw [e1] at hp
  rw [e2] at hk
  rw [e2, e3]
  omega

/-! ### The claims -/

/-- C1 (code bug): when the heap is full, `csp_timer_heap_put` doubles
    the capacity (64 to 128) but passes the raw element count to
    `realloc`, so the grown buffer is 128 bytes — room for 16 task
    pointers, not 128, and not even the 65 the claimed growth scenario
    needs; the init path's own `malloc(sizeof(csp_proc_t *) * cap)`
    allocates 512 bytes for the *smaller* capacity.  The claim that the
    grown backing array holds `2*cap` task references is false on the
    code. -/
theorem C1_realloc_byte_count :
    grownCap defaultCap = 128 ∧
    initAllocBytes defaultCap = 512 ∧
    growReallocBytes defaultCap = 128 ∧
    growReallocBytes defaultCap / ptrSize = 16 ∧
    growReallocBytes defaultCap < initAllocBytes (grownCap defaultCap) ∧
    growReallocBytes defaultCap < ptrSize * (defaultCap + 1) := by decide

/-- C2: on a heap satisfying the min-heap invariant, `csp_timer_heap_get`
    with approximated-now `T` returns exactly the tasks with deadline
    ≤ T (each with its token field set to the sentinel), retains exactly
    the complement, and the retained array is still a min-heap. -/
theorem C2_extraction_exact (s : TState) (T : Int) (hheap : IsHeap s.procs) :
    (∀ e ∈ (getS T s).2, e.when ≤ T ∧ (getS T s).1.tokens e.id = sentinel) ∧
    (∀ e ∈ (getS T s).1.procs, T < e.when) ∧
    List.Perm ((getS T s).2 ++ (getS T s).1.procs) s.procs ∧
    IsHeap (getS T s).1.procs := by
  obtain ⟨h1, h2, h3, h4, h5, h6⟩ := heapGet_spec T s.procs s.tokens hheap
  exact ⟨fun e he => ⟨h1 e he, h5 e he⟩, h2, h3, h4⟩

def c2State : TState :=
  { procs := [⟨1, 1⟩, ⟨4, 2⟩, ⟨2, 3⟩, ⟨3, 8⟩, ⟨0, 5⟩],
    tokens := fun _ => 0, counter := 0, destroyed := [] }

/-- C2 witness: the specification round-trip scenario — deadlines
    5, 1, 3, 8, 2 polled at now = 4 yield the expired set {1, 2, 3} and
    retain {5, 8}, still heap-ordered. -/
theorem C2_extraction_exact_witness :
    IsHeap c2State.procs ∧
    (getS 4 c2State).2 = [⟨1, 1⟩, ⟨4, 2⟩, ⟨2, 3⟩] ∧
    (getS 4 c2State).1.procs = [⟨0, 5⟩, ⟨3, 8⟩] ∧
    ((∀ e ∈ (getS 4 c2State).2, e.when ≤ 4 ∧ (getS 4 c2State).1.tokens e.id = sentinel) ∧
     (∀ e ∈ (getS 4 c2State).1.procs, 4 < e.when) ∧
     List.Perm ((getS 4 c2State).2 ++ (getS 4 c2State).1.procs) c2State.procs ∧
     IsHeap (getS 4 c2State).1.procs) :=
  ⟨by decide, by decide, by decide, C2_extraction_exact c2State 4 (by decide)⟩

/-- C3: `csp_timer_cancel` is a no-op returning false when the task's
    token does not match the handle's; on a match it retires the token to
    the sentinel, deletes the task from the heap array, logs exactly one
    `csp_proc_destroy` call, and returns true. -/
theorem C3_cancel_token_guard (s : TState) (tid tok : Nat)
    (hnd : (s.procs.map Ent.id).Nodup) (hmem : tid ∈ s.procs.map Ent.id) :
    (s.tokens tid ≠ tok → cancelS s tid tok = (s, false)) ∧
    (s.tokens tid = tok →
      (cancelS s tid tok).2 = true ∧
      (cancelS s tid tok).1.tokens tid = sentinel ∧
      tid ∉ (cancelS s tid tok).1.procs.map Ent.id ∧
      List.Perm (tid :: (cancelS s tid tok).1.procs.map Ent.id) (s.procs.map Ent.id) ∧
      (cancelS s tid tok).1.destroyed = s.destroyed ++ [tid]) :=
  cancelS_spec s tid tok hnd hmem

def c3State : TState :=
  { procs := [⟨7, 5⟩, ⟨8, 9⟩],
    tokens := fun i => if i = 7 then 3 else 12, counter := 20, destroyed := [] }

/-- C3 witness: on a two-task heap, cancelling task 7 with the stale
    token 9 is a proven no-op, and cancelling with its live token 3
    retires and destroys it. -/
theorem C3_cancel_token_guard_witness :
    (c3State.procs.map Ent.id).Nodup ∧ 7 ∈ c3State.procs.map Ent.id ∧
    cancelS c3State 7 9 = (c3State, false) ∧
    ((cancelS c3State 7 3).2 = true ∧
     (cancelS c3State 7 3).1.tokens 7 = sentinel ∧
     7 ∉ (cancelS c3State 7 3).1.procs.map Ent.id ∧
     List.Perm (7 :: (cancelS c3State 7 3).1.procs.map Ent.id) (c3State.procs.map Ent.id) ∧
     (cancelS c3State 7 3).1.destroyed = c3State.destroyed ++ [7]) :=
  ⟨by decide, by decide,
   (C3_cancel_token_guard c3State 7 9 (by decide) (by decide)).1 (by decide),
   (C3_cancel_token_guard c3State 7 3 (by decide) (by decide)).2 (by decide)⟩

/-- C4: at-most-once consumption.  (a) A task just extracted by
    `csp_timer_heap_get` has its token at the sentinel, so a cancel with
    the original (non-sentinel) handle token fails and changes nothing.
    (b) A successful cancel removes the task from the heap array.  (c) A
    task not heap-resident stays non-resident under any further
    put/poll/cancel steps that do not re-arm it, and no poll ever
    returns it. -/
theorem C4_at_most_once (s : TState) (T : Int) (tid tok : Nat) (trace : List Step) :
    (tok ≠ sentinel → ∀ e ∈ (getS T s).2,
      cancelS (getS T s).1 e.id tok = ((getS T s).1, false)) ∧
    ((s.procs.map Ent.id).Nodup → tid ∈ s.procs.map Ent.id →
      (cancelS s tid tok).2 = true → tid ∉ (cancelS s tid tok).1.procs.map Ent.id) ∧
    (tid ∉ s.procs.map Ent.id → (∀ d, Step.put tid d ∉ trace) →
      tid ∉ (applySteps s trace).procs.map Ent.id ∧
      ∀ T2, ∀ e ∈ (getS T2 (applySteps s trace)).2, e.id ≠ tid) := by
  refine ⟨?_, ?_, ?_⟩
  · intro hs e he
    have htok : (getS T s).1.tokens e.id = sentinel :=
      (heapGetGo_tokens T s.procs.length s.procs s.tokens).1 e he
    unfold cancelS
    rw [if_neg (by rw [htok]; exact fun h => hs h.symm)]
  · intro hnd hmem hsucc
    by_cases hc : s.tokens tid = tok
    · exact ((cancelS_spec s tid tok hnd hmem).2 hc).2.2.1
    · exfalso
      have := (cancelS_spec s tid tok hnd hmem).1 hc
      rw [this] at hsucc
      simp at hsucc
  · intro hn hput
    refine ⟨notResident_invariant tid trace s hn hput, ?_⟩
    intro T2 e he
    exact poll_skips_nonresident T2 _ tid (notResident_invariant tid trace s hn hput) e he

def c4State : TState :=
  { procs := [⟨1, 0⟩], tokens := fun i => if i = 1 then 9 else 0,
    counter := 10, destroyed := [] }

def c4Trace : List Step := [Step.poll 0, Step.cancel 2 0, Step.put 3 7]

/-- C4 witness: on a one-task heap, the task extracted at now = 5 cannot
    be cancelled with its old token 9 afterwards; a successful cancel of
    task 1 leaves it non-resident; and a non-resident task 2 stays
    non-resident across a poll, an unrelated cancel and an unrelated put,
    with no poll returning it. -/
theorem C4_at_most_once_witness :
    ((9 : Nat) ≠ sentinel ∧ ∀ e ∈ (getS 5 c4State).2,
      cancelS (getS 5 c4State).1 e.id 9 = ((getS 5 c4State).1, false)) ∧
    ((cancelS c4State 1 9).2 = true ∧ 1 ∉ (cancelS c4State 1 9).1.procs.map Ent.id) ∧
    (2 ∉ (applySteps c4State c4Trace).procs.map Ent.id ∧
      ∀ T2, ∀ e ∈ (getS T2 (applySteps c4State c4Trace)).2, e.id ≠ 2) :=
  ⟨⟨by decide, (C4_at_most_once c4State 5 1 9 c4Trace).1 (by decide)⟩,
   ⟨by decide, (C4_at_most_once c4State 5 1 9 c4Trace).2.1 (by decide) (by decide) (by decide)⟩,
   (C4_at_most_once c4State 5 2 9 c4Trace).2.2 (by decide)
     (by intro d; simp [c4Trace])⟩

/-- C5 counterexample: with a root of deadline 5 whose two children both
    have deadline 3, `csp_timer_heap_del`'s sift-down chooses the RIGHT
    child (slot 2, task 2) for the swap, not the left one, because the
    comparison `csp_timer_heap_lte(heap, son+1, son)` uses ≤. -/
theorem C5_counterexample :
    wn [⟨0, 5⟩, ⟨1, 3⟩, ⟨2, 3⟩] 1 = wn [⟨0, 5⟩, ⟨1, 3⟩, ⟨2, 3⟩] 2 ∧
    chosenSon [⟨0, 5⟩, ⟨1, 3⟩, ⟨2, 3⟩] 0 = 2 ∧
    siftDown [⟨0, 5⟩, ⟨1, 3⟩, ⟨2, 3⟩] 0 = [⟨2, 3⟩, ⟨1, 3⟩, ⟨0, 5⟩] := by decide

/-- C5 amended: when the current node has two children with equal
    deadlines, the sift-down of `csp_timer_heap_del` picks the RIGHT
    child for the comparison and possible swap. -/
theorem C5_tie_breaks_right (l : List Ent) (f : Nat) (hr : 2 * f + 1 + 1 < l.length)
    (heq : wn l (2 * f + 1) = wn l (2 * f + 1 + 1)) :
    chosenSon l f = 2 * f + 1 + 1 := by
  unfold chosenSon
  rw [if_pos ⟨hr, le_of_eq heq.symm⟩]

/-- C5 witness: the amended tie-break applied to the counterexample
    heap. -/
theorem C5_tie_breaks_right_witness :
    2 * 0 + 1 + 1 < ([⟨0, 5⟩, ⟨1, 3⟩, ⟨2, 3⟩] : List Ent).length ∧
    wn [⟨0, 5⟩, ⟨1, 3⟩, ⟨2, 3⟩] (2 * 0 + 1) = wn [⟨0, 5⟩, ⟨1, 3⟩, ⟨2, 3⟩] (2 * 0 + 1 + 1) ∧
    chosenSon [⟨0, 5⟩, ⟨1, 3⟩, ⟨2, 3⟩] 0 = 2 * 0 + 1 + 1 :=
  ⟨by decide, by decide, C5_tie_breaks_right _ 0 (by decide) (by decide)⟩

/-- C6 counterexample: with two heaps where heap 1's allocation fails,
    `csp_timer_heaps_init` returns false but leaves heap 0's array and
    the registry allocated — it tears nothing down. -/
theorem C6_counterexample :
    (heapsInit 2 true (fun i => i == 0)).ok = false ∧
    (heapsInit 2 true (fun i => i == 0)).registryAllocated = true ∧
    (heapsInit 2 true (fun i => i == 0)).liveHeaps = [0] := by decide

/-- C6 amended: on a heap-allocation failure at index i,
    `csp_timer_heaps_init` records `len = i` and returns false, leaving
    exactly heaps 0..i-1 and the registry allocated, so that a subsequent
    `csp_timer_heaps_destroy` releases exactly them and nothing is
    leaked; the teardown is deferred, not performed inside init. -/
theorem C6_deferred_cleanup (np : Nat) (heapOk : Nat → Bool)
    (hfail : (heapsInit np true heapOk).ok = false) :
    (heapsInit np true heapOk).registryAllocated = true ∧
    (heapsInit np true heapOk).liveHeaps = List.range (heapsInit np true heapOk).len ∧
    heapOk (heapsInit np true heapOk).len = false ∧
    (heapsInit np true heapOk).len < np ∧
    (heapsDestroy (heapsInit np true heapOk)).registryAllocated = false ∧
    (heapsDestroy (heapsInit np true heapOk)).liveHeaps = [] := by
  have hsome : ∃ live i, heapsInitFold heapOk [] (List.range np) = (live, some i) := by
    rcases hmatch : heapsInitFold heapOk [] (List.range np) with ⟨live, res⟩
    cases res with
    | some i => exact ⟨live, i, rfl⟩
    | none =>
      exfalso
      unfold heapsInit at hfail
      rw [if_pos rfl, hmatch] at hfail
      simp at hfail
  obtain ⟨live, i, hmatch⟩ := hsome
  obtain ⟨pre, suf, hsplit, hpre, hbad, hlive⟩ :=
    heapsInitFold_fail heapOk (List.range np) [] live i hmatch
  simp only [List.nil_append] at hlive
  have hlensum : np = pre.length + (suf.length + 1) := by
    simpa using congrArg List.length hsplit
  have hprelt : pre.length < np := by omega
  have hget : (List.range np)[pre.length]? = some i := by
    rw [hsplit, List.getElem?_append_right (le_refl pre.length)]
    simp
  rw [List.getElem?_range hprelt] at hget
  have hi : i = pre.length := by
    injection hget with h
    exact h.symm
  have htake : List.range (min pre.length np) = pre := by
    have h1 : (List.range np).take pre.length = pre := by
      rw [hsplit]
      exact List.take_left pre _
    rw [List.take_range] at h1
    exact h1
  have hmin : min pre.length np = pre.length := by omega
  rw [hmin] at htake
  have hprerange : pre = List.range i := by rw [hi]; exact htake.symm
  have hres : heapsInit np true heapOk = ⟨true, live, i, false⟩ := by
    unfold heapsInit
    rw [if_pos rfl, hmatch]
  rw [hres]
  refine ⟨rfl, ?_, ?_, ?_, rfl, ?_⟩
  · show live = List.range i
    rw [hlive]
    exact hprerange
  · exact hbad
  · show i < np
    omega
  · show List.filter (fun x => decide (i ≤ x)) live = []
    rw [List.filter_eq_nil]
    intro a ha
    rw [hlive, hprerange] at ha
    have := List.mem_range.mp ha
    simp only [decide_eq_true_eq]
    omega

/-- C6 witness: the deferred-cleanup property applied to the
    counterexample configuration. -/
theorem C6_deferred_cleanup_witness :
    (heapsInit 2 true (fun i => i == 0)).ok = false ∧
    ((heapsInit 2 true (fun i => i == 0)).registryAllocated = true ∧
     (heapsInit 2 true (fun i => i == 0)).liveHeaps
        = List.range (heapsInit 2 true (fun i => i == 0)).len ∧
     (fun i => i == 0) (heapsInit 2 true (fun i => i == 0)).len = false ∧
     (heapsInit 2 true (fun i => i == 0)).len < 2 ∧
     (heapsDestroy (heapsInit 2 true (fun i => i == 0))).registryAllocated = false ∧
     (heapsDestroy (heapsInit 2 true (fun i => i == 0))).liveHeaps = []) :=
  ⟨by decide, C6_deferred_cleanup 2 (fun i => i == 0) (by decide)⟩

/-- C7 counterexample: the token seed `(uint64_t)pid << 53` wraps modulo
    2^64, so the distinct heap identities 0 and 2048 produce identical
    first tokens even though each heap issued only one (fewer than 2^53)
    tokens. -/
theorem C7_counterexample :
    (0 : Nat) ≠ 2048 ∧ (1 : Nat) ≤ 2 ^ 53 ∧ tokenAt 0 0 = tokenAt 2048 0 := by decide

/-- C7 amended: for heap identities below 2^11 (so that the 53-bit shift
    cannot wrap), tokens issued by different heaps within their first
    2^53 puts are always distinct, and the tokens issued by one heap are
    strictly increasing. -/
theorem C7_tokens_unique_bounded (p1 p2 k1 k2 : Nat) (hp1 : p1 < 2 ^ 11)
    (hp2 : p2 < 2 ^ 11) (hk1 : k1 < 2 ^ 53) (hk2 : k2 < 2 ^ 53) :
    (p1 ≠ p2 → tokenAt p1 k1 ≠ tokenAt p2 k2) ∧
    (k1 < k2 → tokenAt p1 k1 < tokenAt p1 k2) := by
  rw [tokenAt_eq p1 k1 hp1 hk1, tokenAt_eq p2 k2 hp2 hk2, tokenAt_eq p1 k2 hp1 hk2]
  have e2 : (2 : Nat) ^ 53 = 9007199254740992 := by norm_num
  rw [e2] at hk1 hk2 ⊢
  constructor
  · intro hne heq
    apply hne
    omega
  · intro hlt
    omega

/-- C7 witness: distinctness and monotonicity at identities 0 and 1,
    put counters 5 and 3. -/
theorem C7_tokens_unique_bounded_witness :
    (0 : Nat) < 2 ^ 11 ∧ (1 : Nat) < 2 ^ 11 ∧ (5 : Nat) < 2 ^ 53 ∧ (3 : Nat) < 2 ^ 53 ∧
    tokenAt 0 5 ≠ tokenAt 1 3 ∧ tokenAt 0 3 < tokenAt 0 5 :=
  ⟨by decide, by decide, by decide, by decide,
   (C7_tokens_unique_bounded 0 1 5 3 (by decide) (by decide) (by decide) (by decide)).1
     (by decide),
   (C7_tokens_unique_bounded 0 1 3 5 (by decide) (by decide) (by decide) (by decide)).2
     (by decide)⟩

def c8Heap : List Ent := List.foldl heapPut [] [⟨0, 1⟩, ⟨1, 5⟩, ⟨2, 2⟩, ⟨3, 6⟩, ⟨4, 7⟩, ⟨5, 3⟩]

/-- C8 (code bug): the heap `[1, 5, 2, 6, 7, 3]` is reachable from the
    empty heap by six puts, but deleting the task at slot 3 (deadline 6,
    exactly what `csp_timer_cancel` does for that task) moves the last
    element (deadline 3) into slot 3 and only sifts it DOWN; since its
    parent (slot 1, deadline 5) is larger, the min-heap property is
    violated — `csp_timer_heap_del` lacks the sift-up half of
    arbitrary-position deletion. -/
theorem C8_del_breaks_heap :
    c8Heap = [⟨0, 1⟩, ⟨1, 5⟩, ⟨2, 2⟩, ⟨3, 6⟩, ⟨4, 7⟩, ⟨5, 3⟩] ∧
    IsHeap c8Heap ∧
    idIndex c8Heap 3 = 3 ∧
    delAt c8Heap 3 = [⟨0, 1⟩, ⟨1, 5⟩, ⟨2, 2⟩, ⟨5, 3⟩, ⟨4, 7⟩] ∧
    ¬ IsHeap (delAt c8Heap 3) ∧
    wn (delAt c8Heap 3) 1 > wn (delAt c8Heap 3) 3 := by decide

/-- C9: `csp_timer_heap_get` on a non-empty heap computes now as
    `baseline_time + (elapsed_cycles / cycles_per_second) * time_unit`
    and leaves the stored baseline pair untouched while the elapsed
    cycles are below the per-second constant; otherwise it re-fetches the
    true time, re-baselines with it and the fresh cycle count, and uses
    it as the result (double arithmetic modelled as exact rationals). -/
theorem C9_clock_approximation (cps second : Int) (procs : List Ent) (cs : ClockState)
    (clockNow trueNow : Int) (hne : procs ≠ []) :
    (clockNow - cs.clock < cps →
      heapGetClock cps second procs cs clockNow trueNow =
        some ((cs.time : ℚ) + (((clockNow - cs.clock : Int) : ℚ) / (cps : ℚ))
          * (second : ℚ), cs)) ∧
    (cps ≤ clockNow - cs.clock →
      heapGetClock cps second procs cs clockNow trueNow =
        some ((trueNow : ℚ), ⟨trueNow, clockNow⟩)) := by
  have hempty : procs.isEmpty = false := by
    cases procs with
    | nil => exact absurd rfl hne
    | cons a l => rfl
  constructor
  · intro hlt
    unfold heapGetClock
    rw [if_neg (by simp [hempty]), if_pos hlt]
  · intro hge
    unfold heapGetClock
    rw [if_neg (by simp [hempty]), if_neg (by omega)]

/-- C9 witness: with a one-second cycle constant of 10^6, a time unit of
    10^9, baseline (5, 100) and current cycle count 150, the fast branch
    yields 5 + (50 / 10^6) * 10^9 = 50005 with the baseline kept; with
    cycle count 2000100 the slow branch re-baselines to the true time
    77. -/
theorem C9_clock_approximation_witness :
    (([⟨0, 0⟩] : List Ent) ≠ []) ∧
    ((150 : Int) - 100 < 1000000) ∧
    heapGetClock 1000000 1000000000 [⟨0, 0⟩] ⟨5, 100⟩ 150 77 =
      some (50005, ⟨5, 100⟩) ∧
    heapGetClock 1000000 1000000000 [⟨0, 0⟩] ⟨5, 100⟩ 2000100 77 =
      some (77, ⟨77, 2000100⟩) := by
  refine ⟨by decide, by decide, ?_, ?_⟩
  · have h := (C9_clock_approximation 1000000 1000000000 [⟨0, 0⟩] ⟨5, 100⟩ 150 77
      (by decide)).1 (by decide)
    rw [h]
    norm_num
  · have h := (C9_clock_approximation 1000000 1000000000 [⟨0, 0⟩] ⟨5, 100⟩ 2000100 77
      (by decide)).2 (by decide)
    rw [h]
    decide

/-- C10: the expired list assembled by `csp_timer_heap_get` and spliced
    by `csp_timer_poll` has only interior links written: the head task's
    `pre` field and the tail task's `next` field are never stored to, so
    the list is not null-terminated at either end. -/
theorem C10_ends_never_written (rs : List (List Nat)) (h t : Nat)
    (log : List (Nat × Bool)) (hnd : (rs.join).Nodup)
    (hrun : pollWrites rs = (some (h, t), log)) :
    (h, false) ∉ log ∧ (t, true) ∉ log := by
  by_cases hne : rs.join = []
  · rw [pollWrites_none rs hne] at hrun
    injection hrun with h1 h2
    exact absurd h1 (by simp)
  · obtain ⟨hacc, hpre, hnext⟩ := pollWrites_spec rs hne
    rw [hrun] at hacc hpre hnext
    simp only at hacc hpre hnext
    injection hacc with hpair
    have hh : h = (rs.join).headD 0 := congrArg Prod.fst hpair
    have ht : t = (rs.join).getLastD 0 := congrArg Prod.snd hpair
    constructor
    · intro hin
      have hmem := hpre h hin
      obtain ⟨a, tl, hal⟩ := List.exists_cons_of_ne_nil hne
      rw [hal] at hh hmem hnd
      simp only [List.headD_cons] at hh
      rw [List.tail_cons] at hmem
      rw [hh] at hmem
      exact (List.nodup_cons.mp hnd).1 hmem
    · intro hin
      have hmem := hnext t hin
      have hlast : t = (rs.join).getLast hne := by
        rw [ht, List.getLastD_eq_getLast?, List.getLast?_eq_getLast _ hne]
        rfl
      have hsplit := List.dropLast_concat_getLast hne
      have hnd' : ((rs.join).dropLast ++ [(rs.join).getLast hne]).Nodup := by
        rw [hsplit]
        exact hnd
      have hdisj := (List.nodup_append.mp hnd').2.2
      exact hdisj hmem (by rw [← hlast]; exact List.mem_singleton_self t) |>.elim

/-- C10 witness: two heaps returning tasks [1, 2] and [3] (with an empty
    heap skipped in between) produce the combined list 1-2-3 whose only
    link stores are 1.next, 2.pre (inside the first get) and 2.next,
    3.pre (the splice); neither 1.pre nor 3.next is ever stored. -/
theorem C10_ends_never_written_witness :
    (([[1, 2], [], [3]] : List (List Nat)).join).Nodup ∧
    pollWrites [[1, 2], [], [3]]
      = (some (1, 3), [(1, true), (2, false), (2, true), (3, false)]) ∧
    ((1, false) ∉ [(1, true), (2, false), (2, true), (3, false)] ∧
     (3, true) ∉ [(1, true), (2, false), (2, true), (3, false)]) :=
  ⟨by decide, by decide,
   C10_ends_never_written [[1, 2], [], [3]] 1 3 _ (by decide) (by decide)⟩

end LibcspTimer
